import Mathlib

/-!
Verification of the timeskwire aggregation-and-layout engine.

This file gives a shallow embedding of the core logic of the program:
the input parser (`src/main.rs`, `parse_input`), the aggregation and
visual-encoding pipeline (`src/reports/default.rs`, `DefaultReport::render`)
and the interval model (`src/interval.rs`).

Modelling conventions:
- `chrono::Duration` is modelled as `Int` (a count of seconds);
  timestamps are likewise modelled as integer seconds.
- Raw text is modelled as `List Char`; Rust string splitting routines
  are translated as recursive functions on character lists.
- `HashMap` is modelled as an association list with insert-or-replace
  semantics; its (unspecified, randomized) iteration order is absorbed
  by stating sort results relationally (see `SortSpec`).
- `sort_unstable_by` guarantees only that its output is a permutation of
  its input that is sorted with respect to the comparator; it is
  therefore embedded as the relation `SortSpec`, not as a function.
- Panics (out-of-bounds indexing, `unwrap`) are distinguished from
  recoverable `Result::Err` returns by the `ParseResult` type.
- The floating-point HSV→RGB conversion performed by the `palette`
  library is abstracted: an encoded group carries the index from which
  its hue (`index * 2π / count`) is derived.  The final per-channel
  scaling expression `(component * 256.0) as u8` is modelled over `ℚ`
  (multiplication of an f32 by 256 is exact, and the cast truncates
  toward zero, which on the non-negative components involved is `⌊·⌋`).
-/

namespace Timeskwire

/-- Model of `chrono::Duration`: an integer count of seconds. -/
abbrev Duration := Int

/-- The interval model (`src/interval.rs`): one logged period plus its tag
collection.  The `end` field is rendered `stop` (`end` is a Lean keyword);
tags are kept as the list produced by the parser's `BTreeSet` insertion
(sorted, duplicate-free). -/
structure Interval where
  start : Int
  stop : Int
  tags : List String
  deriving DecidableEq, Repr

/-- `Interval::to_duration` (named `duration` in `src/interval.rs`):
`end.signed_duration_since(start)`, i.e. `end - start`. -/
def Interval.toDuration (i : Interval) : Duration :=
  i.stop - i.start

/-- Ordered insertion into a sorted duplicate-free list: the model of
`BTreeSet::insert` used at `src/main.rs:190-195` to normalize a raw tag
array. -/
def setInsert (x : String) : List String → List String
  | [] => [x]
  | y :: rest =>
    if x = y then y :: rest
    else if x < y then x :: y :: rest
    else y :: setInsert x rest

/-- `src/main.rs:190-195`: the parser folds every raw tag of a JSON record
into a fresh `BTreeSet`, producing the canonical (sorted, deduplicated)
tag collection of the interval. -/
def parseTags (tagsRaw : List String) : List String :=
  tagsRaw.foldl (fun acc t => setInsert t acc) []

/-- `src/reports/default.rs:54-62`: insert-or-accumulate of one interval's
duration under its tag-set key (`HashMap` modelled as an association
list). -/
def aggAdd (key : List String) (d : Duration) :
    List (List String × Duration) → List (List String × Duration)
  | [] => [(key, d)]
  | (k, v) :: rest =>
    if key = k then (k, v + d) :: rest else (k, v) :: aggAdd key d rest

/-- One iteration of the aggregation loop (`src/reports/default.rs:51-63`):
add the interval's duration to the running total and to its tag set's
accumulator. -/
def aggStep (acc : Duration × List (List String × Duration)) (iv : Interval) :
    Duration × List (List String × Duration) :=
  (acc.1 + iv.toDuration, aggAdd iv.tags iv.toDuration acc.2)

/-- The whole aggregation loop (`src/reports/default.rs:48-63`): starting
from a zero total and an empty map, fold every interval through
`aggStep`.  Returns `(total_time_logged, unique_tag_sets)`. -/
def aggregate (intervals : List Interval) : Duration × List (List String × Duration) :=
  intervals.foldl aggStep (0, [])

/-- Spec-side measure: the sum of the per-tag-set accumulated durations. -/
def sumDur (m : List (List String × Duration)) : Duration :=
  (m.map (fun kv => kv.2)).sum

/-- Lookup of a tag set's accumulated duration (0 when absent). -/
def durOf (key : List String) : List (List String × Duration) → Duration
  | [] => 0
  | (k, v) :: rest => if key = k then v else durOf key rest

lemma sumDur_nil : sumDur [] = 0 := rfl

lemma sumDur_cons (kv : List String × Duration) (m : List (List String × Duration)) :
    sumDur (kv :: m) = kv.2 + sumDur m := by
  simp [sumDur]

lemma sumDur_aggAdd (k : List String) (d : Duration)
    (m : List (List String × Duration)) :
    sumDur (aggAdd k d m) = sumDur m + d := by
  induction m with
  | nil => simp [aggAdd, sumDur]
  | cons hd tl ih =>
    obtain ⟨k2, v2⟩ := hd
    by_cases h : k = k2
    · simp [aggAdd, h, sumDur_cons]
      ring
    · simp [aggAdd, h, sumDur_cons, ih]
      ring

lemma aggregate_loop (ivs : List Interval) (t : Duration)
    (m : List (List String × Duration)) :
    (ivs.foldl aggStep (t, m)).1 = t + (ivs.map Interval.toDuration).sum ∧
    sumDur (ivs.foldl aggStep (t, m)).2 = sumDur m + (ivs.map Interval.toDuration).sum := by
  induction ivs generalizing t m with
  | nil => simp
  | cons iv rest ih =>
    have h := ih (t + iv.toDuration) (aggAdd iv.tags iv.toDuration m)
    constructor
    · rw [List.foldl_cons]
      rw [show aggStep (t, m) iv = (t + iv.toDuration, aggAdd iv.tags iv.toDuration m) from rfl]
      rw [h.1]
      simp
      ring
    · rw [List.foldl_cons]
      rw [show aggStep (t, m) iv = (t + iv.toDuration, aggAdd iv.tags iv.toDuration m) from rfl]
      rw [h.2, sumDur_aggAdd]
      simp
      ring

/-- C1: for every interval sequence given to the aggregation step
(`DefaultReport::render`, `src/reports/default.rs:48-63`), the sum of the
per-tag-set accumulated durations equals the grand total duration
accumulated over the same intervals (conservation of total time). -/
theorem conservation_of_total_time (ivs : List Interval) :
    sumDur (aggregate ivs).2 = (aggregate ivs).1 := by
  have h := aggregate_loop ivs 0 []
  unfold aggregate
  rw [h.1, h.2, sumDur_nil]

/-- Keys of the aggregation map, in entry order. -/
def keysOf : List (List String × Duration) → List (List String)
  | [] => []
  | (k, _) :: rest => k :: keysOf rest

lemma setInsert_cons (x y : String) (rest : List String) :
    setInsert x (y :: rest) =
      if x = y then y :: rest
      else if x < y then x :: y :: rest
      else y :: setInsert x rest := rfl

lemma mem_setInsert (x a : String) (l : List String) :
    a ∈ setInsert x l ↔ a = x ∨ a ∈ l := by
  induction l with
  | nil => simp [setInsert]
  | cons y rest ih =>
    rw [setInsert_cons]
    by_cases h1 : x = y
    · subst h1
      rw [if_pos rfl]
      simp only [List.mem_cons]
      tauto
    · rw [if_neg h1]
      by_cases h2 : x < y
      · rw [if_pos h2]
        simp only [List.mem_cons]
      · rw [if_neg h2]
        simp only [List.mem_cons, ih]
        tauto

lemma sorted_setInsert (x : String) (l : List String)
    (hs : l.Sorted (· < ·)) : (setInsert x l).Sorted (· < ·) := by
  induction l with
  | nil => simp [setInsert]
  | cons y rest ih =>
    rw [List.sorted_cons] at hs
    rw [setInsert_cons]
    by_cases h1 : x = y
    · rw [if_pos h1]
      exact List.sorted_cons.mpr hs
    · rw [if_neg h1]
      by_cases h2 : x < y
      · rw [if_pos h2]
        refine List.sorted_cons.mpr ⟨?_, List.sorted_cons.mpr hs⟩
        intro b hb
        rcases List.mem_cons.mp hb with hb | hb
        · exact hb ▸ h2
        · exact lt_trans h2 (hs.1 b hb)
      · have h3 : y < x := by
          rcases lt_trichotomy x y with h | h | h
          · exact absurd h h2
          · exact absurd h h1
          · exact h
        rw [if_neg h2]
        refine List.sorted_cons.mpr ⟨?_, ih hs.2⟩
        intro b hb
        rcases (mem_setInsert x b rest).mp hb with hb | hb
        · exact hb ▸ h3
        · exact hs.1 b hb

lemma mem_parseTags_loop (l : List String) (acc : List String) (a : String) :
    a ∈ l.foldl (fun acc t => setInsert t acc) acc ↔ a ∈ acc ∨ a ∈ l := by
  induction l generalizing acc with
  | nil => simp
  | cons x rest ih =>
    rw [List.foldl_cons, ih, mem_setInsert]
    simp only [List.mem_cons]
    tauto

lemma mem_parseTags (l : List String) (a : String) :
    a ∈ parseTags l ↔ a ∈ l := by
  rw [parseTags, mem_parseTags_loop]
  simp

lemma sorted_parseTags_loop (l : List String) (acc : List String)
    (hs : acc.Sorted (· < ·)) :
    (l.foldl (fun acc t => setInsert t acc) acc).Sorted (· < ·) := by
  induction l generalizing acc with
  | nil => exact hs
  | cons x rest ih =>
    rw [List.foldl_cons]
    exact ih _ (sorted_setInsert x acc hs)

lemma sorted_parseTags (l : List String) : (parseTags l).Sorted (· < ·) :=
  sorted_parseTags_loop l [] (by simp)

instance : IsAntisymm String (· < ·) :=
  ⟨fun _ _ h1 h2 => (lt_asymm h1 h2).elim⟩

lemma parseTags_ext (l1 l2 : List String) (h : ∀ x, x ∈ l1 ↔ x ∈ l2) :
    parseTags l1 = parseTags l2 := by
  have hmem : ∀ x, x ∈ parseTags l1 ↔ x ∈ parseTags l2 := by
    intro x
    rw [mem_parseTags, mem_parseTags]
    exact h x
  have hs1 := sorted_parseTags l1
  have hs2 := sorted_parseTags l2
  have hperm : List.Perm (parseTags l1) (parseTags l2) :=
    (List.perm_ext_iff_of_nodup hs1.nodup hs2.nodup).mpr hmem
  exact List.eq_of_perm_of_sorted hperm hs1 hs2

lemma keysOf_aggAdd (key : List String) (d : Duration)
    (m : List (List String × Duration)) :
    keysOf (aggAdd key d m) =
      if key ∈ keysOf m then keysOf m else keysOf m ++ [key] := by
  induction m with
  | nil => simp [aggAdd, keysOf]
  | cons hd tl ih =>
    obtain ⟨k, v⟩ := hd
    by_cases hk : key = k
    · subst hk
      simp [aggAdd, keysOf]
    · have hmem : key ∈ keysOf ((k, v) :: tl) ↔ key ∈ keysOf tl := by
        simp [keysOf, hk]
      by_cases h2 : key ∈ keysOf tl
      · rw [if_pos (hmem.mpr h2)]
        simp [aggAdd, hk, keysOf, ih, h2]
      · rw [if_neg (fun hc => h2 (hmem.mp hc))]
        simp [aggAdd, hk, keysOf, ih, h2]

lemma keysOf_aggAdd_nodup (key : List String) (d : Duration)
    (m : List (List String × Duration)) (h : (keysOf m).Nodup) :
    (keysOf (aggAdd key d m)).Nodup := by
  rw [keysOf_aggAdd]
  by_cases h2 : key ∈ keysOf m
  · rwa [if_pos h2]
  · rw [if_neg h2]
    rw [List.nodup_append]
    refine ⟨h, List.nodup_singleton key, ?_⟩
    intro a ha hb
    rw [List.mem_singleton] at hb
    exact h2 (hb ▸ ha)

lemma mem_keysOf_aggAdd_self (key : List String) (d : Duration)
    (m : List (List String × Duration)) : key ∈ keysOf (aggAdd key d m) := by
  rw [keysOf_aggAdd]
  by_cases h2 : key ∈ keysOf m
  · rwa [if_pos h2]
  · rw [if_neg h2]
    simp

lemma mem_keysOf_aggAdd_mono (key k2 : List String) (d : Duration)
    (m : List (List String × Duration)) (h : k2 ∈ keysOf m) :
    k2 ∈ keysOf (aggAdd key d m) := by
  rw [keysOf_aggAdd]
  by_cases h2 : key ∈ keysOf m
  · rwa [if_pos h2]
  · rw [if_neg h2]
    exact List.mem_append_left _ h

lemma aggregate_keys_nodup_loop (ivs : List Interval)
    (m : List (List String × Duration)) (t : Duration)
    (h : (keysOf m).Nodup) :
    (keysOf (ivs.foldl aggStep (t, m)).2).Nodup := by
  induction ivs generalizing t m with
  | nil => exact h
  | cons iv rest ih =>
    rw [List.foldl_cons]
    exact ih _ _ (keysOf_aggAdd_nodup iv.tags iv.toDuration m h)

lemma aggregate_key_mem_loop (ivs : List Interval)
    (m : List (List String × Duration)) (t : Duration)
    (iv : Interval) (hiv : iv ∈ ivs ∨ iv.tags ∈ keysOf m) :
    iv.tags ∈ keysOf (ivs.foldl aggStep (t, m)).2 := by
  induction ivs generalizing t m with
  | nil =>
    rcases hiv with h | h
    · simp at h
    · exact h
  | cons iv2 rest ih =>
    rw [List.foldl_cons]
    rcases hiv with h | h
    · rcases List.mem_cons.mp h with h | h
      · subst h
        exact ih _ _ (Or.inr (mem_keysOf_aggAdd_self iv.tags iv.toDuration m))
      · exact ih _ _ (Or.inl h)
    · exact ih _ _ (Or.inr (mem_keysOf_aggAdd_mono iv2.tags iv.tags iv2.toDuration m h))

lemma durOf_aggAdd (key k2 : List String) (d : Duration)
    (m : List (List String × Duration)) :
    durOf k2 (aggAdd key d m) = durOf k2 m + (if k2 = key then d else 0) := by
  induction m with
  | nil =>
    by_cases h : k2 = key
    · simp [aggAdd, durOf, h]
    · simp [aggAdd, durOf, h]
  | cons hd tl ih =>
    obtain ⟨k, v⟩ := hd
    by_cases hk : key = k
    · subst hk
      by_cases h2 : k2 = key
      · simp [aggAdd, durOf, h2]
      · simp [aggAdd, durOf, h2]
    · by_cases h2 : k2 = k
      · subst h2
        have hne : k2 ≠ key := fun he => hk he.symm
        simp [aggAdd, hk, durOf, hne]
      · simp [aggAdd, hk, durOf, h2, ih]

lemma aggStep_eq (a : Duration × List (List String × Duration)) (iv : Interval) :
    aggStep a iv = (a.1 + iv.toDuration, aggAdd iv.tags iv.toDuration a.2) := rfl

lemma durOf_fold_congr (ivs : List Interval)
    (m1 m2 : List (List String × Duration))
    (h : ∀ k, durOf k m1 = durOf k m2) (k : List String) (t1 t2 : Duration) :
    durOf k ((ivs.foldl aggStep (t1, m1)).2) = durOf k ((ivs.foldl aggStep (t2, m2)).2) := by
  induction ivs generalizing m1 m2 t1 t2 with
  | nil => exact h k
  | cons iv rest ih =>
    rw [List.foldl_cons, List.foldl_cons, aggStep_eq, aggStep_eq]
    apply ih
    intro k2
    simp only [durOf_aggAdd, h k2]

lemma durOf_fold_perm (ivs1 ivs2 : List Interval) (hperm : List.Perm ivs1 ivs2) :
    ∀ (m : List (List String × Duration)) (t : Duration) (k : List String),
    durOf k ((ivs1.foldl aggStep (t, m)).2) = durOf k ((ivs2.foldl aggStep (t, m)).2) := by
  induction hperm with
  | nil => intro m t k; rfl
  | cons iv h ih =>
    intro m t k
    rw [List.foldl_cons, List.foldl_cons]
    exact ih _ _ k
  | swap iv1 iv2 l =>
    intro m t k
    simp only [List.foldl_cons, aggStep_eq]
    apply durOf_fold_congr
    intro k2
    simp only [durOf_aggAdd]
    ring
  | trans h1 h2 ih1 ih2 =>
    intro m t k
    rw [ih1 m t k, ih2 m t k]

/-- C2: tag equality is set equality, and set-equal tag collections land in
exactly one aggregate group regardless of input order.  Part 1: the parser's
`BTreeSet` normalization (`src/main.rs:190-195`) sends any two raw tag lists
with the same members (order and duplicates irrelevant) to the same key.
Part 2: the aggregation map (`src/reports/default.rs:49-63`) has
pairwise-distinct keys and contains an entry for every interval's tag set,
so each tag set owns exactly one group.  Part 3: every key's accumulated
duration is invariant under permutation of the input interval sequence. -/
theorem tag_set_grouping :
    (∀ l1 l2 : List String, (∀ x, x ∈ l1 ↔ x ∈ l2) → parseTags l1 = parseTags l2) ∧
    (∀ ivs : List Interval, (keysOf (aggregate ivs).2).Nodup ∧
      ∀ iv ∈ ivs, iv.tags ∈ keysOf (aggregate ivs).2) ∧
    (∀ ivs1 ivs2 : List Interval, List.Perm ivs1 ivs2 →
      ∀ k, durOf k (aggregate ivs1).2 = durOf k (aggregate ivs2).2) := by
  refine ⟨parseTags_ext, fun ivs => ⟨?_, ?_⟩, fun ivs1 ivs2 h k => ?_⟩
  · exact aggregate_keys_nodup_loop ivs [] 0 (by simp [keysOf])
  · intro iv hiv
    exact aggregate_key_mem_loop ivs [] 0 iv (Or.inl hiv)
  · exact durOf_fold_perm ivs1 ivs2 h [] 0 k

/-- Witness for `tag_set_grouping` at concrete inputs: `["b", "a", "a"]`
and `["a", "b"]` are equal as sets and normalize to the same key, and a
two-interval input aggregates to the same per-key durations in either
order. -/
theorem tag_set_grouping_w :
    parseTags ["b", "a", "a"] = parseTags ["a", "b"] ∧
    durOf ["a"] (aggregate [⟨0, 5, ["a"]⟩, ⟨0, 7, ["b"]⟩]).2 =
      durOf ["a"] (aggregate [⟨0, 7, ["b"]⟩, ⟨0, 5, ["a"]⟩]).2 := by
  constructor
  · apply tag_set_grouping.1
    intro x
    simp only [List.mem_cons, List.not_mem_nil, or_false]
    tauto
  · exact tag_set_grouping.2.2 [⟨0, 5, ["a"]⟩, ⟨0, 7, ["b"]⟩]
      [⟨0, 7, ["b"]⟩, ⟨0, 5, ["a"]⟩] (by decide) ["a"]

/-- `src/reports/default.rs:77-78`: the aggregation map is collected into a
vector (in the `HashMap`'s unspecified iteration order) and sorted with
`sort_unstable_by(|a, b| a.1.cmp(b.1))`, i.e. ascending by duration.
`sort_unstable_by` guarantees only that the result is a permutation of the
input that is sorted with respect to the comparator — it is not stable —
so the sort is embedded as this relation between the aggregate list and
any order the program may actually produce. -/
def SortSpec (input output : List (List String × Duration)) : Prop :=
  List.Perm input output ∧ output.Pairwise (fun a b => a.2 ≤ b.2)

instance (input output : List (List String × Duration)) :
    Decidable (SortSpec input output) :=
  inferInstanceAs (Decidable (_ ∧ _))

/-- `src/reports/default.rs:80-97`: the sorted vector is mapped to triples
`(tag_set, duration, color)`, where the i-th group's color is derived from
the hue `i * colorspace_increment` (with
`colorspace_increment = 2π / tag_set_count`).  The floating-point
HSV→RGB conversion is abstracted: each encoded group carries the index
`i` from which its hue is computed, mirroring the mutable
`current_color_radians` counter. -/
def encodeFrom (i : Nat) : List (List String × Duration) → List (List String × Duration × Nat)
  | [] => []
  | (k, d) :: rest => (k, d, i) :: encodeFrom (i + 1) rest

/-- The visual-encoding map applied to the sorted aggregate vector. -/
def encodeSorted (sorted : List (List String × Duration)) :
    List (List String × Duration × Nat) :=
  encodeFrom 0 sorted

/-- A possible output of the visual-encoding step
(`src/reports/default.rs:67-97`) on a given aggregate list: some valid
outcome of the unstable sort, encoded. -/
def EncodeOutcome (aggs : List (List String × Duration))
    (out : List (List String × Duration × Nat)) : Prop :=
  ∃ sorted, SortSpec aggs sorted ∧ out = encodeSorted sorted

/-- C3 (counterexample): with two aggregate groups of equal duration, two
different orders both satisfy the contract of the unstable sort at
`src/reports/default.rs:76-78`, so the ordering is not determined by the
aggregate data — ties are not broken by insertion order and the result is
not reproducible (the pre-sort order itself comes from `HashMap`
iteration, which is randomized). -/
theorem sort_tie_not_reproducible :
    SortSpec [(["a"], 5), (["b"], 5)] [(["a"], 5), (["b"], 5)] ∧
    SortSpec [(["a"], 5), (["b"], 5)] [(["b"], 5), (["a"], 5)] ∧
    ([(["a"], 5), (["b"], 5)] : List (List String × Duration)) ≠
      [(["b"], 5), (["a"], 5)] := by
  refine ⟨?_, ?_, ?_⟩ <;> decide

/-- C3 (amended): the ordering sorts the aggregate groups ascending by
duration; any two outputs the unstable sort may produce carry the same
duration sequence (the ascending sort of the durations is unique), but
the order of equal-duration groups within it is not specified. -/
theorem sort_duration_sequence_unique
    (g o1 o2 : List (List String × Duration))
    (h1 : SortSpec g o1) (h2 : SortSpec g o2) :
    o1.map Prod.snd = o2.map Prod.snd ∧
    (o1.map Prod.snd).Sorted (· ≤ ·) := by
  have hperm : List.Perm (o1.map Prod.snd) (o2.map Prod.snd) :=
    (h1.1.symm.trans h2.1).map Prod.snd
  have hs1 : (o1.map Prod.snd).Sorted (· ≤ ·) :=
    List.pairwise_map.mpr h1.2
  have hs2 : (o2.map Prod.snd).Sorted (· ≤ ·) :=
    List.pairwise_map.mpr h2.2
  exact ⟨List.eq_of_perm_of_sorted hperm hs1 hs2, hs1⟩

/-- Witness for `sort_duration_sequence_unique` at a concrete input with a
duration tie. -/
theorem sort_duration_sequence_unique_w :
    ([(["a"], 5), (["b"], 5)] : List (List String × Duration)).map Prod.snd =
      ([(["b"], 5), (["a"], 5)] : List (List String × Duration)).map Prod.snd ∧
    (([(["a"], 5), (["b"], 5)] : List (List String × Duration)).map Prod.snd).Sorted (· ≤ ·) :=
  sort_duration_sequence_unique [(["a"], 5), (["b"], 5)]
    [(["a"], 5), (["b"], 5)] [(["b"], 5), (["a"], 5)]
    (by decide) (by decide)

/-- C4 (counterexample): with an empty interval list the aggregation
produces a zero total and an empty map, and the visual-encoding step is
still executed and succeeds with zero encoded groups.  No
division-by-zero error condition arises: `2.0 * PI / tag_set_count` at
`src/reports/default.rs:71` is an IEEE `f32` division (yielding infinity
for a zero count, not a failure), and neither `DefaultReport::render` nor
its caller (`src/main.rs:119-134`) contains any zero-count guard or skip
branch. -/
theorem empty_aggregates_encode_ok :
    aggregate [] = (0, []) ∧ EncodeOutcome [] [] :=
  ⟨rfl, [], ⟨List.Perm.nil, List.Pairwise.nil⟩, rfl⟩

/-- C4 (amended): an empty interval list yields `total_duration = 0` and
zero aggregate groups; the visual-encoding step is invoked anyway (there
is no skip branch) and every outcome it can produce is the empty encoded
list, with no error raised. -/
theorem empty_input_zero_groups :
    (aggregate []).1 = 0 ∧
    ∀ out, EncodeOutcome [] out → out = [] := by
  refine ⟨rfl, ?_⟩
  rintro out ⟨sorted, ⟨hp, _⟩, he⟩
  rw [he, (hp.symm.eq_nil : sorted = [])]
  rfl

/-- Witness for `empty_input_zero_groups`, applying it to the (unique)
empty outcome. -/
theorem empty_input_zero_groups_w :
    (aggregate []).1 = 0 ∧ ([] : List (List String × Duration × Nat)) = [] :=
  ⟨empty_input_zero_groups.1,
    empty_input_zero_groups.2 [] ⟨[], ⟨List.Perm.nil, List.Pairwise.nil⟩, rfl⟩⟩

/-- Page dimensions of the report (`src/reports/default.rs:101`). -/
def pageWidth : ℚ := 180

/-- Fixed page margin (`src/reports/default.rs:105`). -/
def pageMargin : ℚ := 10

/-- Width available to the stacked bar chart
(`src/reports/default.rs:176`): `page_dim.0 - 2.0 * margin`. -/
def barChartWidth : ℚ := pageWidth - 2 * pageMargin

/-- The percentage printed in each legend row
(`src/reports/default.rs:139-140`):
`duration.num_seconds() / total.num_seconds() * 100`. -/
def pctOf (d total : Duration) : ℚ :=
  (d : ℚ) / (total : ℚ) * 100

/-- Legend rows (`src/reports/default.rs:131-159`): one row per encoded
group, iterated in the (ascending) order of the encoded vector, each row
carrying the group and its percentage of total time. -/
def legendRows (enc : List (List String × Duration × Nat)) (total : Duration) :
    List ((List String × Duration × Nat) × ℚ) :=
  enc.map (fun g => (g, pctOf g.2.1 total))

/-- Stacked bar chart segments (`src/reports/default.rs:178-193`): the
encoded vector is traversed with `.iter().rev()` — the exact reverse of
the legend order — and each group's segment width is
`bar_chart_dims.0 * (duration / total)`. -/
def barSegments (enc : List (List String × Duration × Nat)) (total : Duration) :
    List ((List String × Duration × Nat) × ℚ) :=
  enc.reverse.map (fun g => (g, barChartWidth * ((g.2.1 : ℚ) / (total : ℚ))))

lemma mem_encodeFrom (i : Nat) (s : List (List String × Duration))
    (y : List String × Duration × Nat) (hy : y ∈ encodeFrom i s) :
    (y.1, y.2.1) ∈ s := by
  induction s generalizing i with
  | nil => simp [encodeFrom] at hy
  | cons hd rest ih =>
    obtain ⟨k, d⟩ := hd
    rcases List.mem_cons.mp hy with h | h
    · subst h
      simp
    · exact List.mem_cons_of_mem _ (ih (i + 1) h)

lemma encodeFrom_pairwise (i : Nat) (s : List (List String × Duration))
    (hs : s.Pairwise (fun a b => a.2 ≤ b.2)) :
    (encodeFrom i s).Pairwise (fun a b => a.2.1 ≤ b.2.1) := by
  induction s generalizing i with
  | nil => exact List.Pairwise.nil
  | cons hd rest ih =>
    obtain ⟨k, d⟩ := hd
    rw [List.pairwise_cons] at hs
    refine List.Pairwise.cons ?_ (ih (i + 1) hs.2)
    intro y hy
    exact hs.1 (y.1, y.2.1) (mem_encodeFrom (i + 1) rest y hy)

lemma sortspec_pair_distinct (A B : List String × Duration)
    (h : A.2 < B.2) (out : List (List String × Duration))
    (hs : SortSpec [A, B] out) : out = [A, B] := by
  have hne : A ≠ B := fun he => absurd h (by rw [he]; exact lt_irrefl _)
  have hlen : out.length = 2 := hs.1.length_eq.symm
  match out, hlen with
  | [x, y], _ =>
    have hA : A ∈ [x, y] := hs.1.subset (by simp)
    have hB : B ∈ [x, y] := hs.1.subset (by simp)
    have hxy : x.2 ≤ y.2 := by
      have := hs.2
      rw [List.pairwise_cons] at this
      exact this.1 y (by simp)
    rcases List.mem_cons.mp hA with hA1 | hA1
    · rcases List.mem_cons.mp hB with hB1 | hB1
      · exact absurd (hA1 ▸ hB1 ▸ rfl : A = B) hne
      · rw [List.mem_singleton] at hB1
        rw [hA1, hB1]
    · rw [List.mem_singleton] at hA1
      rcases List.mem_cons.mp hB with hB1 | hB1
      · exact absurd (lt_of_le_of_lt (hA1 ▸ hB1 ▸ hxy) h)
          (lt_irrefl B.2)
      · rw [List.mem_singleton] at hB1
        exact absurd (hA1 ▸ hB1 ▸ rfl : A = B) hne

/-- The two-interval scenario of the spec: disjoint single tags, durations
30 minutes (1800 s) and 90 minutes (5400 s). -/
def scenarioIntervals : List Interval :=
  [⟨0, 1800, ["snack"]⟩, ⟨0, 5400, ["work"]⟩]

/-- C7: the stacked bar chart (`src/reports/default.rs:178-193`) lays its
segments out in the exact reverse of the (ascending) legend order — hence
descending by duration — and each segment's width is
`duration / total_duration` times the available bar width; in the
30-minute/90-minute scenario the legend lists the 30 m group first with
percentages 25 % and 75 %, while the bar chart places the 90 m segment
first, with widths 40 and 120 of the 160-unit bar. -/
theorem bar_chart_order_and_widths :
    (∀ (enc : List (List String × Duration × Nat)) (total : Duration),
      (barSegments enc total).map Prod.fst =
        ((legendRows enc total).map Prod.fst).reverse ∧
      ∀ seg ∈ barSegments enc total,
        seg.2 = barChartWidth * ((seg.1.2.1 : ℚ) / (total : ℚ))) ∧
    (∀ (g out : List (List String × Duration)) (total : Duration),
      SortSpec g out →
      (barSegments (encodeSorted out) total).Pairwise
        (fun a b => b.1.2.1 ≤ a.1.2.1)) ∧
    ((aggregate scenarioIntervals).1 = 7200 ∧
      ∀ out, SortSpec (aggregate scenarioIntervals).2 out →
        (legendRows (encodeSorted out) 7200).map (fun r => (r.1.1, r.2)) =
          [(["snack"], 25), (["work"], 75)] ∧
        (barSegments (encodeSorted out) 7200).map (fun s => (s.1.1, s.2)) =
          [(["work"], 120), (["snack"], 40)]) := by
  refine ⟨fun enc total => ⟨?_, ?_⟩, fun g out total hs => ?_, ?_, fun out hs => ?_⟩
  · simp [barSegments, legendRows, List.map_map, Function.comp]
  · intro seg hseg
    simp only [barSegments, List.mem_map] at hseg
    obtain ⟨g, _, rfl⟩ := hseg
    rfl
  · rw [barSegments, List.pairwise_map, List.pairwise_reverse]
    exact encodeFrom_pairwise 0 out hs.2
  · decide
  · have hagg : (aggregate scenarioIntervals).2 =
        [(["snack"], 1800), (["work"], 5400)] := by decide
    rw [hagg] at hs
    have hout := sortspec_pair_distinct (["snack"], 1800) (["work"], 5400)
      (by decide) out hs
    subst hout
    constructor
    · simp [legendRows, encodeSorted, encodeFrom, pctOf]
      norm_num
    · simp [barSegments, encodeSorted, encodeFrom, barChartWidth,
        pageWidth, pageMargin]
      norm_num

/-- Witness for `bar_chart_order_and_widths`: its scenario clause applied
to the concrete sorted outcome. -/
theorem bar_chart_order_and_widths_w :
    (legendRows (encodeSorted [(["snack"], 1800), (["work"], 5400)]) 7200).map
        (fun r => (r.1.1, r.2)) = [(["snack"], 25), (["work"], 75)] ∧
    (barSegments (encodeSorted [(["snack"], 1800), (["work"], 5400)]) 7200).map
        (fun s => (s.1.1, s.2)) = [(["work"], 120), (["snack"], 40)] :=
  bar_chart_order_and_widths.2.2.2 [(["snack"], 1800), (["work"], 5400)]
    ⟨by decide, by decide⟩

/-- `src/reports/default.rs:91-93`: each RGB color channel is produced by
the expression `(color_tuple.i * 256.0) as u8`.  The multiplication of an
`f32` component by 256 is exact (a power-of-two scaling), and the
float-to-integer cast truncates toward zero; on the non-negative unit
components produced by the HSV→RGB conversion, truncation is `⌊·⌋`.
This models the scaled value the cast receives. -/
def scaleChannel (component : ℚ) : ℤ :=
  ⌊component * 256⌋

/-- C8: the channel scaling multiplies the unit-interval component by 256
and truncates rather than rounds (a component of 2047/2048 scales to
255.875 and yields 255, where rounding would give 256), and a component
exactly equal to 1.0 yields the value 256, which exceeds the 8-bit
channel maximum of 255. -/
theorem rgb_scale_truncation :
    scaleChannel 1 = 256 ∧
    (2 ^ 8 - 1 : ℤ) < scaleChannel 1 ∧
    scaleChannel (2047 / 2048) = 255 ∧
    (255 + 1 / 2 : ℚ) < (2047 / 2048 : ℚ) * 256 := by
  refine ⟨?_, ?_, ?_, ?_⟩
  · norm_num [scaleChannel]
  · norm_num [scaleChannel]
  · rw [scaleChannel]
    norm_num
  · norm_num

/-- `src/main.rs:170-173`: `input_buf.split("\n\n")` — split the raw input
at every non-overlapping occurrence of the two-character blank-line
boundary, scanning left to right.  Like Rust's `str::split`, the result is
always non-empty. -/
def splitOnBlank : List Char → List (List Char)
  | [] => [[]]
  | [c] => [[c]]
  | c1 :: c2 :: rest =>
    if c1 = '\n' ∧ c2 = '\n' then [] :: splitOnBlank rest
    else
      match splitOnBlank (c2 :: rest) with
      | [] => [[c1]]
      | h :: t => (c1 :: h) :: t

/-- Whether the text contains a blank-line boundary (a `"\n\n"` substring). -/
def hasBlank : List Char → Bool
  | [] => false
  | [_] => false
  | c1 :: c2 :: rest =>
    if c1 = '\n' ∧ c2 = '\n' then true else hasBlank (c2 :: rest)

/-- Split at every newline (the raw splitting underlying `str::lines`). -/
def splitNewline : List Char → List (List Char)
  | [] => [[]]
  | c :: rest =>
    if c = '\n' then [] :: splitNewline rest
    else
      match splitNewline rest with
      | [] => [[c]]
      | h :: t => (c :: h) :: t

/-- `str::lines` strips one trailing carriage return from each line. -/
def stripCr (l : List Char) : List Char :=
  if l.getLast? = some '\x0d' then l.dropLast else l

/-- `sections[0].lines()` (`src/main.rs:178`): split at newlines, drop the
trailing empty line produced by a final newline (so the empty string has
no lines), and strip trailing carriage returns. -/
def linesOf (s : List Char) : List (List Char) :=
  let parts := splitNewline s
  let parts := if parts.getLast? = some [] then parts.dropLast else parts
  parts.map stripCr

/-- `line.splitn(2, ": ")` (`src/main.rs:179`): `some (key, value)` splits
at the first occurrence of the `": "` separator; `none` means the line has
no separator, in which case `splitn` yields a single element and the
subsequent `entry[1]` accesses (`src/main.rs:180-182`) panic with an
out-of-bounds index. -/
def splitKV : List Char → Option (List Char × List Char)
  | [] => none
  | [_] => none
  | c1 :: c2 :: rest =>
    if c1 = ':' ∧ c2 = ' ' then some ([], rest)
    else (splitKV (c2 :: rest)).map (fun kv => (c1 :: kv.1, kv.2))

/-- The configuration mapping (`HashMap<String, String>` modelled as an
association list in first-insertion order). -/
abbrev ConfigMap := List (List Char × List Char)

/-- `HashMap::insert`: replace the value of an existing key, else append. -/
def mapInsert (k v : List Char) : ConfigMap → ConfigMap
  | [] => [(k, v)]
  | (k2, v2) :: rest =>
    if k = k2 then (k, v) :: rest else (k2, v2) :: mapInsert k v rest

/-- `HashMap::get`. -/
def mapGet (k : List Char) : ConfigMap → Option (List Char)
  | [] => none
  | (k2, v2) :: rest => if k = k2 then some v2 else mapGet k rest

/-- The header-parsing loop (`src/main.rs:176-183`): for every line of the
header section, split at `": "` and insert the key/value pair into the
configuration map.  `none` models the `entry[1]` index-out-of-bounds panic
on a line without the separator. -/
def parseHeaderLoop : List (List Char) → ConfigMap → Option ConfigMap
  | [], cfg => some cfg
  | line :: rest, cfg =>
    match splitKV line with
    | none => none
    | some kv => parseHeaderLoop rest (mapInsert kv.1 kv.2 cfg)

/-- Where `parse_input` panics (both sites are out-of-bounds index
panics). -/
inductive PanicSite where
  /-- `entry[1]` at `src/main.rs:180-182`, on a header line without
  `": "`. -/
  | headerEntryIndex
  /-- `sections[1]` at `src/main.rs:185`, when the input has fewer than
  two blank-line-separated sections. -/
  | sectionsIndex
  deriving DecidableEq, Repr

/-- The observable outcome of `parse_input` (`src/main.rs:163-225`): a
normal return, a recoverable error propagated to the caller with `?`
(`Result::Err`), or a panic (which aborts the process and never returns a
value). -/
inductive ParseResult (α : Type) where
  | ok (val : α)
  | err
  | panic (site : PanicSite)
  deriving DecidableEq

/-- `parse_input` (`src/main.rs:163-225`).  The body stage —
`serde_json::from_str` on `sections[1]` plus the per-record loop building
intervals (timestamp parsing via `chrono`, `unwrap`s on the JSON values) —
is external library behavior and is abstracted as the `bodyParse`
parameter; the claims settled here concern the stages before it. -/
def parseInputM (bodyParse : List Char → ParseResult (List Interval))
    (input : List Char) : ParseResult (ConfigMap × List Interval) :=
  match parseHeaderLoop (linesOf ((splitOnBlank input).headD [])) [] with
  | none => .panic .headerEntryIndex
  | some cfg =>
    match (splitOnBlank input).get? 1 with
    | none => .panic .sectionsIndex
    | some body =>
      match bodyParse body with
      | .ok intervals => .ok (cfg, intervals)
      | .err => .err
      | .panic p => .panic p

/-- A trivial body stage used to instantiate `parseInputM` at concrete
inputs whose outcome is decided before the body stage runs. -/
def stubBody : List Char → ParseResult (List Interval) :=
  fun _ => .ok []

/-- Whether a line contains the `": "` separator. -/
def hasSep : List Char → Bool
  | [] => false
  | [_] => false
  | c1 :: c2 :: rest =>
    if c1 = ':' ∧ c2 = ' ' then true else hasSep (c2 :: rest)

lemma splitKV_cons2 (c1 c2 : Char) (rest : List Char) :
    splitKV (c1 :: c2 :: rest) =
      if c1 = ':' ∧ c2 = ' ' then some ([], rest)
      else (splitKV (c2 :: rest)).map (fun kv => (c1 :: kv.1, kv.2)) := rfl

lemma hasSep_cons2 (c1 c2 : Char) (rest : List Char) :
    hasSep (c1 :: c2 :: rest) =
      if c1 = ':' ∧ c2 = ' ' then true else hasSep (c2 :: rest) := rfl

lemma splitKV_spec : ∀ (l k v : List Char), splitKV l = some (k, v) →
    l = k ++ ':' :: ' ' :: v ∧ hasSep k = false
  | [], k, v, h => by simp [splitKV] at h
  | [c], k, v, h => by simp [splitKV] at h
  | c1 :: c2 :: rest, k, v, h => by
    rw [splitKV_cons2] at h
    by_cases hc : c1 = ':' ∧ c2 = ' '
    · rw [if_pos hc] at h
      injection h with h1
      injection h1 with hk hv
      subst hk
      subst hv
      rw [hc.1, hc.2]
      exact ⟨rfl, rfl⟩
    · rw [if_neg hc] at h
      rw [Option.map_eq_some'] at h
      obtain ⟨⟨k2, v2⟩, h2, hkv⟩ := h
      injection hkv with hk hv
      subst hk
      subst hv
      have ih := splitKV_spec (c2 :: rest) k2 v2 h2
      constructor
      · rw [List.cons_append, ← ih.1]
      · cases k2 with
        | nil => rfl
        | cons c3 t =>
          have hc2 : c2 = c3 := by
            have := ih.1
            rw [List.cons_append] at this
            exact (List.cons.injEq .. ▸ this).1
          rw [hasSep_cons2]
          rw [if_neg (by rw [hc2] at hc; exact hc)]
          exact ih.2

/-- C5 (counterexample): on the input `"x\n\n[]"`, whose header block is the
single line `"x"` without a `": "` separator, `parse_input` panics at the
`entry[1]` index access (`src/main.rs:180-182`) — it does not return a
recoverable `MalformedHeaderError`-style error value to the caller. -/
theorem missing_separator_panics_cex :
    parseInputM stubBody ("x\n\n[]".toList) = .panic .headerEntryIndex ∧
    parseInputM stubBody ("x\n\n[]".toList) ≠ .err := by
  refine ⟨?_, ?_⟩ <;> decide

/-- C5 (amended): a header block containing a line without the `": "`
separator makes the header loop panic with an out-of-bounds index (no
recoverable error is returned); on well-formed lines the text preceding
the first `": "` occurrence is the key and the remainder is the value. -/
theorem header_line_without_separator (ls : List (List Char)) (cfg : ConfigMap)
    (h : ∃ l ∈ ls, splitKV l = none) :
    parseHeaderLoop ls cfg = none ∧
    ∀ (l k v : List Char), splitKV l = some (k, v) →
      l = k ++ ':' :: ' ' :: v ∧ hasSep k = false := by
  refine ⟨?_, splitKV_spec⟩
  induction ls generalizing cfg with
  | nil => obtain ⟨l, hl, _⟩ := h; exact absurd hl (List.not_mem_nil l)
  | cons line rest ih =>
    cases hsl : splitKV line with
    | none => simp [parseHeaderLoop, hsl]
    | some kv =>
      obtain ⟨l, hl, hnone⟩ := h
      rcases List.mem_cons.mp hl with hl1 | hl1
      · rw [hl1] at hnone
        rw [hnone] at hsl
        exact absurd hsl (Option.some_ne_none kv).symm
      · simp only [parseHeaderLoop, hsl]
        exact ih _ ⟨l, hl1, hnone⟩

/-- Witness for `header_line_without_separator`: a concrete malformed
header block panics, and a concrete well-formed line splits at its first
separator. -/
theorem header_line_without_separator_w :
    parseHeaderLoop ["nosep".toList] [] = none ∧
    ("key: val: ue".toList = "key".toList ++ ':' :: ' ' :: "val: ue".toList ∧
      hasSep ("key".toList) = false) :=
  ⟨(header_line_without_separator ["nosep".toList] ([] : ConfigMap)
      ⟨"nosep".toList, by decide⟩).1,
   (header_line_without_separator ["nosep".toList] ([] : ConfigMap)
      ⟨"nosep".toList, by decide⟩).2 ("key: val: ue".toList) ("key".toList)
      ("val: ue".toList) (by decide)⟩

lemma splitOnBlank_cons2 (c1 c2 : Char) (rest : List Char) :
    splitOnBlank (c1 :: c2 :: rest) =
      if c1 = '\n' ∧ c2 = '\n' then [] :: splitOnBlank rest
      else
        match splitOnBlank (c2 :: rest) with
        | [] => [[c1]]
        | h :: t => (c1 :: h) :: t := rfl

lemma hasBlank_cons2 (c1 c2 : Char) (rest : List Char) :
    hasBlank (c1 :: c2 :: rest) =
      if c1 = '\n' ∧ c2 = '\n' then true else hasBlank (c2 :: rest) := rfl

lemma splitOnBlank_no_boundary : ∀ (s : List Char), hasBlank s = false →
    splitOnBlank s = [s]
  | [], _ => rfl
  | [c], _ => rfl
  | c1 :: c2 :: rest, h => by
    rw [hasBlank_cons2] at h
    by_cases hc : c1 = '\n' ∧ c2 = '\n'
    · rw [if_pos hc] at h
      exact absurd h (by simp)
    · rw [if_neg hc] at h
      rw [splitOnBlank_cons2, if_neg hc,
        splitOnBlank_no_boundary (c2 :: rest) h]

lemma splitOnBlank_first_boundary :
    ∀ (h b : List Char), hasBlank (h ++ ['\n']) = false →
    splitOnBlank (h ++ '\n' :: '\n' :: b) = h :: splitOnBlank b
  | [], b, _ => by
    rw [List.nil_append, splitOnBlank_cons2, if_pos ⟨rfl, rfl⟩]
  | [c], b, hh => by
    have hc : ¬(c = '\n' ∧ '\n' = '\n') := by
      intro hcon
      rw [show ([c] ++ ['\n'] : List Char) = [c, '\n'] from rfl,
        hasBlank_cons2, if_pos ⟨hcon.1, rfl⟩] at hh
      exact absurd hh (by simp)
    rw [List.cons_append, List.nil_append, splitOnBlank_cons2, if_neg hc,
      splitOnBlank_cons2, if_pos ⟨rfl, rfl⟩]
  | c1 :: c2 :: h3, b, hh => by
    rw [List.cons_append, List.cons_append, hasBlank_cons2] at hh
    by_cases hc : c1 = '\n' ∧ c2 = '\n'
    · rw [if_pos hc] at hh
      exact absurd hh (by simp)
    · rw [if_neg hc] at hh
      rw [List.cons_append, List.cons_append, splitOnBlank_cons2, if_neg hc]
      rw [show c2 :: (h3 ++ '\n' :: '\n' :: b) = (c2 :: h3) ++ '\n' :: '\n' :: b from rfl]
      rw [splitOnBlank_first_boundary (c2 :: h3) b (by rw [List.cons_append]; exact hh)]

/-- The spec's description of the body block (§4.1: "Splits on the first
blank-line boundary into a header block and a body block"): everything
after the first `"\n\n"` occurrence.  Stated as a second definition, to be
compared against what the code computes. -/
def specBodyAfterFirst : List Char → Option (List Char)
  | [] => none
  | [_] => none
  | c1 :: c2 :: rest =>
    if c1 = '\n' ∧ c2 = '\n' then some rest
    else specBodyAfterFirst (c2 :: rest)

/-- C6 (counterexample): on the input `"a: b\n\n[1,\n\n2]"`, whose body
contains a blank line, the body section the code passes to the JSON parser
(`sections[1]`, `src/main.rs:185`) is `"[1,"` — the text between the first
and second blank lines — not everything after the first blank line as the
claim states. -/
theorem body_blank_line_truncates_cex :
    (splitOnBlank ("a: b\n\n[1,\n\n2]".toList)).get? 1 = some ("[1,".toList) ∧
    specBodyAfterFirst ("a: b\n\n[1,\n\n2]".toList) = some ("[1,\n\n2]".toList) ∧
    (splitOnBlank ("a: b\n\n[1,\n\n2]".toList)).get? 1 ≠
      specBodyAfterFirst ("a: b\n\n[1,\n\n2]".toList) := by
  refine ⟨?_, ?_, ?_⟩ <;> decide

/-- C6 (amended): the parser splits the raw input at every blank-line
boundary; the header block is the text before the first blank line, and
the body block is the text between the first and second blank lines (the
first segment of the remainder), so a body that itself contains a blank
line is truncated at it rather than parsed in full. -/
theorem split_every_boundary (h b : List Char)
    (hh : hasBlank (h ++ ['\n']) = false) :
    (splitOnBlank (h ++ '\n' :: '\n' :: b)).headD [] = h ∧
    (splitOnBlank (h ++ '\n' :: '\n' :: b)).get? 1 = (splitOnBlank b).get? 0 := by
  rw [splitOnBlank_first_boundary h b hh]
  exact ⟨rfl, rfl⟩

/-- Witness for `split_every_boundary` at the concrete truncating input. -/
theorem split_every_boundary_w :
    (splitOnBlank ("a: b".toList ++ '\n' :: '\n' :: "[1,\n\n2]".toList)).headD [] =
      "a: b".toList ∧
    (splitOnBlank ("a: b".toList ++ '\n' :: '\n' :: "[1,\n\n2]".toList)).get? 1 =
      (splitOnBlank ("[1,\n\n2]".toList)).get? 0 :=
  split_every_boundary ("a: b".toList) ("[1,\n\n2]".toList) (by decide)

/-- C9 (counterexample): on the input `"x"` (no blank-line boundary and a
header line without `": "`) the out-of-bounds panic happens already at the
header `entry[1]` access (`src/main.rs:180-182`), before the body section
`sections[1]` is ever reached — so it is not the body-section access that
panics on every boundary-free input. -/
theorem no_blank_header_site_cex :
    parseInputM stubBody ("x".toList) = .panic .headerEntryIndex ∧
    parseInputM stubBody ("x".toList) ≠ .panic .sectionsIndex := by
  refine ⟨?_, ?_⟩ <;> decide

/-- C9 (amended): for every input text containing no `"\n\n"` substring,
`parse_input` does not return at all — neither a value nor an error — but
panics with an out-of-bounds index: at the `sections[1]` body-section
access (`src/main.rs:185`) when every header line parses, or already at
the header `entry[1]` access (`src/main.rs:180-182`) otherwise. -/
theorem no_blank_boundary_panics
    (bodyParse : List Char → ParseResult (List Interval))
    (s : List Char) (h : hasBlank s = false) :
    (parseHeaderLoop (linesOf s) [] = none →
      parseInputM bodyParse s = .panic .headerEntryIndex) ∧
    (parseHeaderLoop (linesOf s) [] ≠ none →
      parseInputM bodyParse s = .panic .sectionsIndex) := by
  unfold parseInputM
  rw [splitOnBlank_no_boundary s h]
  constructor
  · intro hc
    rw [show ([s] : List (List Char)).headD [] = s from rfl, hc]
  · intro hc
    cases hcc : parseHeaderLoop (linesOf s) [] with
    | none => exact absurd hcc hc
    | some cfg =>
      rw [show ([s] : List (List Char)).headD [] = s from rfl, hcc]
      rfl

/-- Witness for `no_blank_boundary_panics` at a concrete boundary-free
input with a well-formed header line. -/
theorem no_blank_boundary_panics_w :
    parseInputM stubBody ("a: b".toList) = .panic .sectionsIndex :=
  (no_blank_boundary_panics stubBody ("a: b".toList) (by decide)).2 (by decide)

/-- The key/value pairs of the well-formed header lines, in line order. -/
def kvsOf (ls : List (List Char)) : List (List Char × List Char) :=
  ls.filterMap splitKV

/-- The configuration map built by inserting each pair in line order. -/
def buildMap (kvs : List (List Char × List Char)) : ConfigMap :=
  kvs.foldl (fun m kv => mapInsert kv.1 kv.2 m) []

/-- The value of the last pair carrying a given key, if any. -/
def lastMatch (k : List Char) : List (List Char × List Char) → Option (List Char)
  | [] => none
  | kv :: rest =>
    match lastMatch k rest with
    | some v => some v
    | none => if kv.1 = k then some kv.2 else none

lemma mapGet_mapInsert (k k2 v : List Char) (m : ConfigMap) :
    mapGet k2 (mapInsert k v m) = if k2 = k then some v else mapGet k2 m := by
  induction m with
  | nil =>
    by_cases h : k2 = k
    · simp [mapInsert, mapGet, h]
    · simp [mapInsert, mapGet, h]
  | cons hd tl ih =>
    obtain ⟨k3, v3⟩ := hd
    by_cases h1 : k = k3
    · subst h1
      by_cases h2 : k2 = k
      · simp [mapInsert, mapGet, h2]
      · simp [mapInsert, mapGet, h2]
    · by_cases h2 : k2 = k3
      · subst h2
        have hne : k2 ≠ k := fun he => h1 he.symm
        simp [mapInsert, mapGet, h1, hne]
      · simp [mapInsert, mapGet, h1, h2, ih]

lemma mapGet_buildMap_loop (kvs : List (List Char × List Char))
    (m : ConfigMap) (k : List Char) :
    mapGet k (kvs.foldl (fun m kv => mapInsert kv.1 kv.2 m) m) =
      Option.or (lastMatch k kvs) (mapGet k m) := by
  induction kvs generalizing m with
  | nil => rfl
  | cons kv rest ih =>
    rw [List.foldl_cons, ih, lastMatch]
    cases hl : lastMatch k rest with
    | some v => rfl
    | none =>
      rw [mapGet_mapInsert]
      by_cases h : kv.1 = k
      · rw [if_pos h, if_pos h.symm]
        rfl
      · rw [if_neg h, if_neg (fun he => h he.symm)]

lemma parseHeaderLoop_wellformed (ls : List (List Char)) (cfg : ConfigMap)
    (h : ∀ l ∈ ls, (splitKV l).isSome) :
    parseHeaderLoop ls cfg =
      some ((kvsOf ls).foldl (fun m kv => mapInsert kv.1 kv.2 m) cfg) := by
  induction ls generalizing cfg with
  | nil => rfl
  | cons line rest ih =>
    cases hsl : splitKV line with
    | none =>
      have := h line (List.mem_cons_self line rest)
      rw [hsl] at this
      exact absurd this (by simp)
    | some kv =>
      simp only [parseHeaderLoop, hsl]
      rw [ih _ (fun l hl => h l (List.mem_cons_of_mem line hl))]
      simp [kvsOf, List.filterMap_cons, hsl]

/-- C10: duplicate header keys raise no error; the configuration map ends
up holding, for every key, the value of the last header line carrying it
(later `HashMap::insert` calls at `src/main.rs:182` silently overwrite
earlier ones). -/
theorem header_duplicate_last_wins (ls : List (List Char)) (k : List Char)
    (h : ∀ l ∈ ls, (splitKV l).isSome) :
    parseHeaderLoop ls [] = some (buildMap (kvsOf ls)) ∧
    mapGet k (buildMap (kvsOf ls)) = lastMatch k (kvsOf ls) := by
  constructor
  · exact parseHeaderLoop_wellformed ls [] h
  · rw [buildMap, mapGet_buildMap_loop]
    cases lastMatch k (kvsOf ls) with
    | some v => rfl
    | none => rfl

/-- Witness for `header_duplicate_last_wins`: two lines with the same key
parse without error and the map holds the second line's value. -/
theorem header_duplicate_last_wins_w :
    parseHeaderLoop ["a: 1".toList, "a: 2".toList] [] =
      some (buildMap (kvsOf ["a: 1".toList, "a: 2".toList])) ∧
    mapGet ("a".toList) (buildMap (kvsOf ["a: 1".toList, "a: 2".toList])) =
      lastMatch ("a".toList) (kvsOf ["a: 1".toList, "a: 2".toList]) :=
  header_duplicate_last_wins ["a: 1".toList, "a: 2".toList] ("a".toList)
    (by decide)

end Timeskwire
